import Mathlib

/-!
Shallow embedding of the word-lookup tool in `src/main.rs`.

Rust strings are modelled as `List Char`; the console is modelled as a
finite list of input lines (one `Word` per `read_line`).  The external
`difflib` crate (function `get_close_matches` with `n = 1`,
`cutoff = 0.8`) is modelled from the spec's description: the
Ratcliff/Obershelp sequence-matching ratio `2*M/T`, a candidate being
suggested only when its ratio clears the `0.8` threshold, top-1
selection with a deterministic tie-break.  Ratios are compared as exact
rationals via cross-multiplication instead of `f32` arithmetic.
-/

/-- Rust `String`/`&str`, modelled as its list of characters. -/
abbrev Word := List Char

/-- `type Definitions = Vec<String>` (src/main.rs, line 8). -/
abbrev Definitions := List Word

/-- Model of `char::is_whitespace` (the predicate behind `str::trim`),
restricted to the ASCII whitespace characters. -/
def isWhitespace (c : Char) : Bool :=
  c = ' ' || c = '\t' || c = '\n' || c = '\r'

/-- Per-character effect of `str::to_lowercase`: on ASCII it maps each
uppercase letter to its lowercase counterpart and leaves every other
character unchanged. -/
def lowerChar (c : Char) : Char :=
  match c with
  | 'A' => 'a' | 'B' => 'b' | 'C' => 'c' | 'D' => 'd' | 'E' => 'e' | 'F' => 'f'
  | 'G' => 'g' | 'H' => 'h' | 'I' => 'i' | 'J' => 'j' | 'K' => 'k' | 'L' => 'l'
  | 'M' => 'm' | 'N' => 'n' | 'O' => 'o' | 'P' => 'p' | 'Q' => 'q' | 'R' => 'r'
  | 'S' => 's' | 'T' => 't' | 'U' => 'u' | 'V' => 'v' | 'W' => 'w' | 'X' => 'x'
  | 'Y' => 'y' | 'Z' => 'z'
  | other => other

/-- Model of `str::trim`: drop leading, then trailing, whitespace. -/
def trimList (s : Word) : Word :=
  List.rdropWhile isWhitespace (List.dropWhile isWhitespace s)

/-- `word.trim().to_lowercase()`, the normalization performed at
src/main.rs line 58 and inside `UserResponse::from_str` (line 38). -/
def normalizeWord (s : Word) : Word :=
  (trimList s).map lowerChar

/-- `enum UserResponse` (src/main.rs, lines 30-34). -/
inductive UserResponse
  | yes
  | no
  | unknown
deriving DecidableEq

/-- `UserResponse::from_str` (src/main.rs, lines 37-43): the trimmed,
lowercased input is compared against the literals of the Rust `match`. -/
def UserResponse.fromStr (input : Word) : UserResponse :=
  let t := normalizeWord input
  if t = "y".toList ∨ t = "yes".toList then .yes
  else if t = "n".toList ∨ t = "no".toList then .no
  else .unknown

/-- `enum DictionaryError` (src/main.rs, lines 11-15). -/
inductive DictionaryError
  | notFound
  | incorrectWord (w : Word)
  | unknownInput
deriving DecidableEq

/-- Rust `Result<Definitions, DictionaryError>`. -/
inductive LookupOutcome
  | ok (defns : Definitions)
  | error (e : DictionaryError)
deriving DecidableEq

/-- `struct Dictionary { data: HashMap<String, Definitions> }`
(src/main.rs, lines 46-48).  The hash map is modelled as an association
list; its order stands for the (fixed, per-instance) iteration order of
the `HashMap`.  `Dictionary::from_json` (lines 52-55) fills `data`
directly from the parsed JSON, with no normalization of the keys. -/
structure Dictionary where
  data : List (Word × Definitions)
deriving DecidableEq

/-- `HashMap::get`: first (unique, for a real hash map) binding of the key. -/
def lookupKey : List (Word × Definitions) → Word → Option Definitions
  | [], _ => none
  | (k, ds) :: rest, w => if k = w then some ds else lookupKey rest w

/-- `self.data.keys()` (src/main.rs, line 62). -/
def Dictionary.keys (d : Dictionary) : List Word :=
  d.data.map Prod.fst

/-- Length of the longest common prefix of two character lists. -/
def commonPrefixLen : List Char → List Char → Nat
  | a :: as, b :: bs => if a = b then commonPrefixLen as bs + 1 else 0
  | _, _ => 0

/-- All blocks `(i, j, k)` where `k` is the length of the common run of
`a` starting at `i` and `b` starting at `j`. -/
def matchBlocks (a b : List Char) : List (Nat × Nat × Nat) :=
  (List.range a.length).flatMap fun i =>
    (List.range b.length).map fun j => (i, j, commonPrefixLen (a.drop i) (b.drop j))

/-- Keep the block with the strictly larger run; on ties keep the earlier
one (scan order: smallest `i`, then smallest `j`). -/
def betterBlock (best t : Nat × Nat × Nat) : Nat × Nat × Nat :=
  if best.2.2 < t.2.2 then t else best

/-- `SequenceMatcher.find_longest_match` over the whole sequences:
the longest matching block, earliest in `a` then earliest in `b`. -/
def findLongestMatch (a b : List Char) : Nat × Nat × Nat :=
  (matchBlocks a b).foldl betterBlock (0, 0, 0)

/-- Total size `M` of the Ratcliff/Obershelp matching blocks: take the
longest match, then recurse on the pieces to its left and to its right.
`fuel` is a structural recursion bound; `a.length + b.length` always
suffices (each recursive call strictly shrinks that sum). -/
def matchingTotalAux : Nat → List Char → List Char → Nat
  | 0, _, _ => 0
  | fuel + 1, a, b =>
    let t := findLongestMatch a b
    if t.2.2 = 0 then 0
    else
      matchingTotalAux fuel (a.take t.1) (b.take t.2.1) + t.2.2 +
        matchingTotalAux fuel (a.drop (t.1 + t.2.2)) (b.drop (t.2.1 + t.2.2))

/-- `M` for the pair `(a, b)`, with sufficient fuel. -/
def matchingTotal (a b : List Char) : Nat :=
  matchingTotalAux (a.length + b.length) a b

/-- Numerator `2*M` of the `SequenceMatcher.ratio()` value `2*M/T`. -/
def ratioNum (a b : Word) : Nat := 2 * matchingTotal a b

/-- Denominator `T = |a| + |b|` of the ratio. -/
def ratioDen (a b : Word) : Nat := a.length + b.length

/-- `ratio ≥ 0.8`, compared exactly by cross-multiplication:
`2M/T ≥ 4/5 ↔ 4*T ≤ 5*2M`. -/
def clearsCutoff (a b : Word) : Bool :=
  4 * ratioDen a b ≤ 5 * ratioNum a b

/-- `ratio(c₁, w) > ratio(c₂, w)`, by cross-multiplication. -/
def ratioAbove (c₁ c₂ w : Word) : Bool :=
  ratioNum c₂ w * ratioDen c₁ w < ratioNum c₁ w * ratioDen c₂ w

/-- Modelled from the spec: `get_close_matches(&word, choices, 1, 0.8).first()`
from the external `difflib` crate (src/main.rs, line 63; the crate's code is
not part of this repository).  Per the spec (§4.1): over the full key set,
keep the choices whose similarity ratio clears the `0.8` threshold and
return the single best one, with a deterministic tie-break (here: the
earliest choice in iteration order attaining the maximal ratio). -/
def closestCandidate (data : List (Word × Definitions)) (w : Word) : Option Word :=
  match (data.map Prod.fst).filter (fun k => clearsCutoff k w) with
  | [] => none
  | c :: cs => some (cs.foldl (fun best k => if ratioAbove k best w then k else best) c)

/-- The classification step of `Dictionary::confirm_word`
(src/main.rs, lines 80-83): an affirmative or negative response is
returned as a value, anything else becomes `Err(UnknownInput)`. -/
def confirmResponse (line : Word) : Except DictionaryError UserResponse :=
  match UserResponse.fromStr line with
  | .unknown => .error .unknownInput
  | r => .ok r

/-- Observable result of one top-level `Dictionary::lookup` call:
the returned outcome, the console lines left unread, and the
confirmation prompts emitted (one per `confirm_word` call, recording the
candidate named in the prompt). -/
structure RunState where
  outcome : LookupOutcome
  rest : List Word
  prompts : List Word
deriving DecidableEq

/-- `Dictionary::lookup` (src/main.rs, lines 57-73) when the console is
already exhausted: on a miss with a candidate, `confirm_word` still
prints its prompt, but `read_line` leaves the buffer empty, the empty
line classifies as `Unknown`, and `confirm_word` returns
`Err(UnknownInput)`. -/
def lookupExhausted (d : Dictionary) (word : Word) : RunState :=
  match lookupKey d.data (normalizeWord word) with
  | some defns => ⟨.ok defns, [], []⟩
  | none =>
    match closestCandidate d.data (normalizeWord word) with
    | some closeWord => ⟨.error .unknownInput, [], [closeWord]⟩
    | none => ⟨.error .notFound, [], []⟩

/-- One layer of `Dictionary::lookup` (src/main.rs, lines 57-73) when at
least one console line `line` is still available (with `rest` behind it):
`confirm_word` (lines 75-84) emits the prompt for the candidate, reads
`line`, classifies it, and propagates `Err(UnknownInput)` for an
unrecognized response; in the `Yes` branch `retry` stands for the
recursive `self.lookup(close_word)` call, run on the remaining input. -/
def lookupStep (d : Dictionary) (line : Word) (rest : List Word)
    (retry : Word → RunState) (word : Word) : RunState :=
  match lookupKey d.data (normalizeWord word) with
  | some defns => ⟨.ok defns, line :: rest, []⟩
  | none =>
    match closestCandidate d.data (normalizeWord word) with
    | some closeWord =>
      match confirmResponse line with
      | .error e => ⟨.error e, rest, [closeWord]⟩
      | .ok .yes =>
        ⟨(retry closeWord).outcome, (retry closeWord).rest,
          closeWord :: (retry closeWord).prompts⟩
      | .ok .no => ⟨.error .notFound, rest, [closeWord]⟩
      | .ok .unknown => ⟨.error .unknownInput, rest, [closeWord]⟩
    | none => ⟨.error .notFound, line :: rest, []⟩

/-- `Dictionary::lookup` (src/main.rs, lines 57-73) run against a finite
stream of console lines, by recursion on the stream: each recursive call
of the `Yes` branch continues with the input left unread.  Written as a
plain `List.rec` application so that the definition evaluates by
iota-reduction. -/
def Dictionary.lookupRun (d : Dictionary) (inputs : List Word) (word : Word) : RunState :=
  List.rec (motive := fun _ => Word → RunState)
    (lookupExhausted d)
    (fun line rest ih => lookupStep d line rest ih)
    inputs word

/-- The outcome alone, as returned to the caller in `main`. -/
def Dictionary.lookup (d : Dictionary) (inputs : List Word) (word : Word) : LookupOutcome :=
  (d.lookupRun inputs word).outcome

/-- A UTF-8 continuation byte (`0x80`-`0xBF`). -/
def isContByte (b : Nat) : Bool :=
  0x80 ≤ b ∧ b ≤ 0xBF

/-- Admissible second byte of a multi-byte UTF-8 sequence, given its lead
byte: the restricted ranges after `0xE0`, `0xED`, `0xF0` and `0xF4` rule
out overlong forms, surrogates, and code points above `0x10FFFF`. -/
def secondByteOk (b0 b1 : Nat) : Bool :=
  if b0 = 0xE0 then 0xA0 ≤ b1 ∧ b1 ≤ 0xBF
  else if b0 = 0xED then 0x80 ≤ b1 ∧ b1 ≤ 0x9F
  else if b0 = 0xF0 then 0x90 ≤ b1 ∧ b1 ≤ 0xBF
  else if b0 = 0xF4 then 0x80 ≤ b1 ∧ b1 ≤ 0x8F
  else isContByte b1

/-- Strict UTF-8 decoding of one console line of raw bytes, accepting
exactly the sequences `str::from_utf8` accepts (no overlong forms, no
surrogates, nothing above `0x10FFFF`).  This models the validation done
inside `read_line` (src/main.rs, line 78), which returns `Err` - then
`.unwrap()`ed - when the bytes read from the console are not valid
UTF-8. -/
def decodeUtf8 : List Nat → Option (List Char)
  | [] => some []
  | b0 :: rest =>
    if b0 ≤ 0x7F then
      (decodeUtf8 rest).map (Char.ofNat b0 :: ·)
    else if 0xC2 ≤ b0 ∧ b0 ≤ 0xDF then
      match rest with
      | b1 :: rest1 =>
        if isContByte b1 then
          (decodeUtf8 rest1).map (Char.ofNat ((b0 - 0xC0) * 0x40 + (b1 - 0x80)) :: ·)
        else none
      | [] => none
    else if 0xE0 ≤ b0 ∧ b0 ≤ 0xEF then
      match rest with
      | b1 :: b2 :: rest2 =>
        if secondByteOk b0 b1 && isContByte b2 then
          (decodeUtf8 rest2).map
            (Char.ofNat ((b0 - 0xE0) * 0x1000 + (b1 - 0x80) * 0x40 + (b2 - 0x80)) :: ·)
        else none
      | _ => none
    else if 0xF0 ≤ b0 ∧ b0 ≤ 0xF4 then
      match rest with
      | b1 :: b2 :: b3 :: rest3 =>
        if secondByteOk b0 b1 && isContByte b2 && isContByte b3 then
          (decodeUtf8 rest3).map
            (Char.ofNat ((b0 - 0xF0) * 0x40000 + (b1 - 0x80) * 0x1000 +
              (b2 - 0x80) * 0x40 + (b3 - 0x80)) :: ·)
        else none
      | _ => none
    else none

/-- One layer of `Dictionary::lookup` over a raw byte-level console line:
as `lookupStep`, except that `confirm_word`'s `read_line(..).unwrap()`
(src/main.rs, line 78) is modelled faithfully to its abort behavior - a
line of bytes that is not valid UTF-8 makes `read_line` return `Err`,
the `.unwrap()` panics, and no outcome value is produced (`none`). -/
def lookupStepBytes (d : Dictionary) (bline : List Nat)
    (retry : Word → Option LookupOutcome) (word : Word) : Option LookupOutcome :=
  match lookupKey d.data (normalizeWord word) with
  | some defns => some (.ok defns)
  | none =>
    match closestCandidate d.data (normalizeWord word) with
    | some closeWord =>
      match decodeUtf8 bline with
      | none => none
      | some line =>
        match confirmResponse line with
        | .error e => some (.error e)
        | .ok .yes => retry closeWord
        | .ok .no => some (.error .notFound)
        | .ok .unknown => some (.error .unknownInput)
    | none => some (.error .notFound)

/-- `Dictionary::lookup` run against raw console bytes (one byte list per
line): `some` an outcome value when every read succeeds along the way,
`none` when a confirmation read hits a line of invalid UTF-8 and the
`.unwrap()` aborts the process.  An exhausted console still reads
successfully (zero bytes), as in `lookupExhausted`. -/
def Dictionary.lookupRunBytes (d : Dictionary) (inputs : List (List Nat)) (word : Word) :
    Option LookupOutcome :=
  List.rec (motive := fun _ => Word → Option LookupOutcome)
    (fun w0 => some (lookupExhausted d w0).outcome)
    (fun bline _rest ih => lookupStepBytes d bline ih)
    inputs word

/-! ### Normalization lemmas -/

/-- Lowercasing never turns a whitespace character into a non-whitespace
one or vice versa. -/
theorem isWhitespace_lowerChar (c : Char) : isWhitespace (lowerChar c) = isWhitespace c := by
  unfold lowerChar
  split <;> rfl

/-- `lowerChar` is idempotent: its image contains no uppercase letter. -/
theorem lowerChar_lowerChar (c : Char) : lowerChar (lowerChar c) = lowerChar c := by
  conv_lhs => arg 1; unfold lowerChar
  conv_rhs => unfold lowerChar
  split
  all_goals try rfl
  unfold lowerChar
  split <;> simp_all

/-- Removing leading whitespace commutes with removing trailing
whitespace. -/
theorem dropWhile_rdropWhile_comm {α : Type} (p : α → Bool) (l : List α) :
    List.dropWhile p (List.rdropWhile p l) = List.rdropWhile p (List.dropWhile p l) := by
  induction l using List.reverseRecOn with
  | nil => simp
  | append_singleton xs x ih =>
    by_cases hx : p x
    · rw [List.rdropWhile_concat_pos _ _ _ hx, ih, List.dropWhile_append]
      split
      · rename_i hempty
        rw [List.isEmpty_iff.mp hempty] at *
        simp [List.dropWhile_cons, hx]
      · rw [List.rdropWhile_concat_pos _ _ _ hx]
    · rw [List.rdropWhile_concat_neg _ _ _ hx, List.dropWhile_append]
      split
      · simp [List.dropWhile_cons, hx, List.rdropWhile_singleton]
      · rw [List.rdropWhile_concat_neg _ _ _ hx]

/-- `str::trim` is idempotent. -/
theorem trimList_trimList (s : Word) : trimList (trimList s) = trimList s := by
  unfold trimList
  rw [dropWhile_rdropWhile_comm, List.dropWhile_idempotent, List.rdropWhile_idempotent]

/-- Trimming commutes with lowercasing. -/
theorem trimList_map_lowerChar (s : Word) :
    trimList (s.map lowerChar) = (trimList s).map lowerChar := by
  have hp : (isWhitespace ∘ lowerChar) = isWhitespace := funext isWhitespace_lowerChar
  unfold trimList List.rdropWhile
  rw [List.dropWhile_map, hp, ← List.map_reverse, List.dropWhile_map, hp, ← List.map_reverse]

/-- Normalization (`word.trim().to_lowercase()`) is idempotent. -/
theorem normalizeWord_idem (s : Word) : normalizeWord (normalizeWord s) = normalizeWord s := by
  unfold normalizeWord
  rw [trimList_map_lowerChar, trimList_trimList, List.map_map]
  exact List.map_congr_left fun c _ => lowerChar_lowerChar c

/-! ### Unfolding and branch lemmas for the lookup engine -/

/-- Running against an exhausted console stream. -/
theorem lookupRun_nil (d : Dictionary) (w : Word) :
    d.lookupRun [] w = lookupExhausted d w := rfl

/-- Running with at least one line available. -/
theorem lookupRun_cons (d : Dictionary) (line : Word) (rest : List Word) (w : Word) :
    d.lookupRun (line :: rest) w = lookupStep d line rest (d.lookupRun rest) w := rfl

theorem confirmResponse_yes {line : Word} (h : UserResponse.fromStr line = .yes) :
    confirmResponse line = .ok .yes := by
  unfold confirmResponse
  rw [h]

theorem confirmResponse_no {line : Word} (h : UserResponse.fromStr line = .no) :
    confirmResponse line = .ok .no := by
  unfold confirmResponse
  rw [h]

theorem confirmResponse_unknown {line : Word} (h : UserResponse.fromStr line = .unknown) :
    confirmResponse line = .error .unknownInput := by
  unfold confirmResponse
  rw [h]

/-- `confirm_word` can only produce an affirmative value, a negative
value, or the `UnknownInput` error. -/
theorem confirmResponse_cases (line : Word) :
    confirmResponse line = .ok .yes ∨ confirmResponse line = .ok .no ∨
      confirmResponse line = .error .unknownInput := by
  unfold confirmResponse
  rcases UserResponse.fromStr line <;> simp

theorem lookupStep_hit {d : Dictionary} {w : Word} {ds : Definitions}
    (line : Word) (rest : List Word) (retry : Word → RunState)
    (h : lookupKey d.data (normalizeWord w) = some ds) :
    lookupStep d line rest retry w = ⟨.ok ds, line :: rest, []⟩ := by
  unfold lookupStep
  rw [h]

theorem lookupStep_noCandidate {d : Dictionary} {w : Word}
    (line : Word) (rest : List Word) (retry : Word → RunState)
    (hmiss : lookupKey d.data (normalizeWord w) = none)
    (hcand : closestCandidate d.data (normalizeWord w) = none) :
    lookupStep d line rest retry w = ⟨.error .notFound, line :: rest, []⟩ := by
  unfold lookupStep
  rw [hmiss, hcand]

theorem lookupStep_yes {d : Dictionary} {w : Word} {c : Word}
    (line : Word) (rest : List Word) (retry : Word → RunState)
    (hmiss : lookupKey d.data (normalizeWord w) = none)
    (hcand : closestCandidate d.data (normalizeWord w) = some c)
    (hline : UserResponse.fromStr line = .yes) :
    lookupStep d line rest retry w =
      ⟨(retry c).outcome, (retry c).rest, c :: (retry c).prompts⟩ := by
  unfold lookupStep
  rw [hmiss, hcand, confirmResponse_yes hline]

theorem lookupStep_no {d : Dictionary} {w : Word} {c : Word}
    (line : Word) (rest : List Word) (retry : Word → RunState)
    (hmiss : lookupKey d.data (normalizeWord w) = none)
    (hcand : closestCandidate d.data (normalizeWord w) = some c)
    (hline : UserResponse.fromStr line = .no) :
    lookupStep d line rest retry w = ⟨.error .notFound, rest, [c]⟩ := by
  unfold lookupStep
  rw [hmiss, hcand, confirmResponse_no hline]

theorem lookupStep_unknown {d : Dictionary} {w : Word} {c : Word}
    (line : Word) (rest : List Word) (retry : Word → RunState)
    (hmiss : lookupKey d.data (normalizeWord w) = none)
    (hcand : closestCandidate d.data (normalizeWord w) = some c)
    (hline : UserResponse.fromStr line = .unknown) :
    lookupStep d line rest retry w = ⟨.error .unknownInput, rest, [c]⟩ := by
  unfold lookupStep
  rw [hmiss, hcand, confirmResponse_unknown hline]

theorem lookupExhausted_hit {d : Dictionary} {w : Word} {ds : Definitions}
    (h : lookupKey d.data (normalizeWord w) = some ds) :
    lookupExhausted d w = ⟨.ok ds, [], []⟩ := by
  unfold lookupExhausted
  rw [h]

theorem lookupExhausted_noCandidate {d : Dictionary} {w : Word}
    (hmiss : lookupKey d.data (normalizeWord w) = none)
    (hcand : closestCandidate d.data (normalizeWord w) = none) :
    lookupExhausted d w = ⟨.error .notFound, [], []⟩ := by
  unfold lookupExhausted
  rw [hmiss, hcand]

theorem lookupExhausted_candidate {d : Dictionary} {w : Word} {c : Word}
    (hmiss : lookupKey d.data (normalizeWord w) = none)
    (hcand : closestCandidate d.data (normalizeWord w) = some c) :
    lookupExhausted d w = ⟨.error .unknownInput, [], [c]⟩ := by
  unfold lookupExhausted
  rw [hmiss, hcand]

/-! ### Lemmas about the store primitives -/

/-- A word that occurs among the keys is found by `HashMap::get`. -/
theorem lookupKey_of_mem_keys :
    ∀ (data : List (Word × Definitions)) (w : Word), w ∈ data.map Prod.fst →
      ∃ ds, lookupKey data w = some ds
  | [], w, hw => by simp at hw
  | (k, ds) :: rest, w, hw => by
    by_cases hk : k = w
    · exact ⟨ds, by simp [lookupKey, hk]⟩
    · have hw' : w ∈ rest.map Prod.fst := by
        simp only [List.map_cons, List.mem_cons] at hw
        rcases hw with h | h
        · exact absurd h.symm hk
        · exact h
      obtain ⟨e, he⟩ := lookupKey_of_mem_keys rest w hw'
      exact ⟨e, by simp [lookupKey, hk, he]⟩

/-- With pairwise distinct keys (the `HashMap` invariant), `get` returns
exactly the definitions stored with the key. -/
theorem lookupKey_of_mem_nodup :
    ∀ (data : List (Word × Definitions)) (w : Word) (ds : Definitions),
      (w, ds) ∈ data → (data.map Prod.fst).Nodup → lookupKey data w = some ds
  | [], w, ds, hmem, _ => by simp at hmem
  | (k, e) :: rest, w, ds, hmem, hnd => by
    rcases List.mem_cons.mp hmem with h | h
    · injection h with h1 h2
      subst h1
      subst h2
      simp [lookupKey]
    · have hk : k ≠ w := by
        intro hkw
        subst hkw
        have hw : k ∈ rest.map Prod.fst := List.mem_map.mpr ⟨(k, ds), h, rfl⟩
        exact (List.nodup_cons.mp (by simpa using hnd)).1 hw
      have := lookupKey_of_mem_nodup rest w ds h (List.nodup_cons.mp (by simpa using hnd)).2
      simp [lookupKey, hk, this]

/-- A fold that at each step keeps either its accumulator or the list
element lands on the initial value or on a list element. -/
theorem foldl_pick_mem {α : Type} (g : α → α → α) (hg : ∀ a t, g a t = a ∨ g a t = t) :
    ∀ (l : List α) (init : α), l.foldl g init = init ∨ l.foldl g init ∈ l
  | [], _ => Or.inl rfl
  | t :: ts, init => by
    rw [List.foldl_cons]
    rcases foldl_pick_mem g hg ts (g init t) with h | h
    · rw [h]
      rcases hg init t with h2 | h2
      · exact Or.inl h2
      · exact Or.inr (by rw [h2]; exact List.mem_cons_self t ts)
    · exact Or.inr (List.mem_cons_of_mem _ h)

/-- A suggested candidate is always drawn from the dictionary's key set. -/
theorem closestCandidate_mem {data : List (Word × Definitions)} {w c : Word}
    (h : closestCandidate data w = some c) : c ∈ data.map Prod.fst := by
  unfold closestCandidate at h
  split at h
  · exact absurd h (by simp)
  · rename_i c0 cs hf
    injection h with h
    have hmem : c ∈ c0 :: cs := by
      rcases foldl_pick_mem (fun best k => if ratioAbove k best w then k else best)
          (fun a t => by by_cases hh : ratioAbove t a w <;> simp [hh]) cs c0 with h2 | h2
      · rw [← h, h2]; exact List.mem_cons_self c0 cs
      · rw [← h]; exact List.mem_cons_of_mem _ h2
    have : c ∈ (data.map Prod.fst).filter (fun k => clearsCutoff k w) := hf ▸ hmem
    exact List.mem_of_mem_filter this

/-- When no key clears the similarity cutoff, no candidate is suggested. -/
theorem closestCandidate_none (data : List (Word × Definitions)) (w : Word)
    (h : ∀ k ∈ data.map Prod.fst, clearsCutoff k w = false) :
    closestCandidate data w = none := by
  unfold closestCandidate
  have hf : (data.map Prod.fst).filter (fun k => clearsCutoff k w) = [] :=
    List.filter_eq_nil_iff.mpr (fun a ha => by simp [h a ha])
  rw [hf]

/-- Every run of the engine ends in a success, `NotFound`, or
`UnknownInput`; shared skeleton for the error-taxonomy claims. -/
theorem lookupRun_outcome_cases (d : Dictionary) :
    ∀ (inputs : List Word) (w : Word),
      (∃ ds, (d.lookupRun inputs w).outcome = .ok ds) ∨
        (d.lookupRun inputs w).outcome = .error .notFound ∨
        (d.lookupRun inputs w).outcome = .error .unknownInput
  | [], w => by
    rw [lookupRun_nil]
    rcases hk : lookupKey d.data (normalizeWord w) with _ | ds
    · rcases hc : closestCandidate d.data (normalizeWord w) with _ | c
      · rw [lookupExhausted_noCandidate hk hc]
        right; left; rfl
      · rw [lookupExhausted_candidate hk hc]
        right; right; rfl
    · rw [lookupExhausted_hit hk]
      exact Or.inl ⟨ds, rfl⟩
  | line :: rest, w => by
    rw [lookupRun_cons]
    rcases hk : lookupKey d.data (normalizeWord w) with _ | ds
    · rcases hc : closestCandidate d.data (normalizeWord w) with _ | c
      · rw [lookupStep_noCandidate _ _ _ hk hc]
        right; left; rfl
      · cases hline : UserResponse.fromStr line with
        | yes =>
          rw [lookupStep_yes _ _ _ hk hc hline]
          exact lookupRun_outcome_cases d rest c
        | no =>
          rw [lookupStep_no _ _ _ hk hc hline]
          right; left; rfl
        | unknown =>
          rw [lookupStep_unknown _ _ _ hk hc hline]
          right; right; rfl
    · rw [lookupStep_hit _ _ _ hk]
      exact Or.inl ⟨ds, rfl⟩

/-! ### Claim theorems -/

/-- C1 (amended): for every dictionary all of whose keys are normalized
(equal to their trimmed, lowercased form), if a query misses, a candidate
is suggested, and the user's response classifies as affirmative, then the
recursive lookup on the candidate hits exactly and the overall lookup
returns the candidate's definitions, consuming no further input and
emitting no further prompt. -/
theorem affirmative_resolves (d : Dictionary)
    (hnorm : ∀ k ∈ d.data.map Prod.fst, normalizeWord k = k)
    (w line : Word) (rest : List Word) (c : Word)
    (hmiss : lookupKey d.data (normalizeWord w) = none)
    (hcand : closestCandidate d.data (normalizeWord w) = some c)
    (hline : UserResponse.fromStr line = .yes) :
    ∃ ds, lookupKey d.data c = some ds ∧
      d.lookupRun (line :: rest) w = ⟨.ok ds, rest, [c]⟩ := by
  have hmemc : c ∈ d.data.map Prod.fst := closestCandidate_mem hcand
  obtain ⟨ds, hds⟩ := lookupKey_of_mem_keys d.data c hmemc
  refine ⟨ds, hds, ?_⟩
  rw [lookupRun_cons, lookupStep_yes _ _ _ hmiss hcand hline]
  have hkey : lookupKey d.data (normalizeWord c) = some ds := by
    rw [hnorm c hmemc]
    exact hds
  have hrec : d.lookupRun rest c = ⟨.ok ds, rest, []⟩ := by
    cases rest with
    | nil => rw [lookupRun_nil, lookupExhausted_hit hkey]
    | cons l2 r2 => rw [lookupRun_cons, lookupStep_hit _ _ _ hkey]
  rw [hrec]

set_option maxRecDepth 8000 in
/-- C1 witness: dictionary `{"apple"}`, query `"appl"`, answer `"y"`. -/
theorem affirmative_resolves_witness :
    ∃ ds, lookupKey [("apple".toList, ["a fruit".toList])] "apple".toList = some ds ∧
      Dictionary.lookupRun ⟨[("apple".toList, ["a fruit".toList])]⟩ ["y".toList] "appl".toList =
        ⟨.ok ds, [], ["apple".toList]⟩ :=
  affirmative_resolves _ (by decide) _ _ _ _ (by decide) (by decide) (by decide)

set_option maxRecDepth 8000 in
/-- C1 counterexample: with the non-normalized key `"Elephant"` the
claim as stated fails.  The query `"elephants"` misses, `"Elephant"` is
suggested and the user answers affirmatively, yet the recursive lookup
on `"Elephant"` misses again (its normalization `"elephant"` is not a
key), a second fuzzy round re-suggests `"Elephant"`, and the overall
lookup does not resolve. -/
theorem affirmative_resolves_counterexample :
    closestCandidate [("Elephant".toList, ["a big animal".toList])]
        (normalizeWord "elephants".toList) = some "Elephant".toList ∧
      UserResponse.fromStr "y".toList = .yes ∧
      (Dictionary.lookupRun ⟨[("Elephant".toList, ["a big animal".toList])]⟩ ["y".toList]
          "elephants".toList).outcome = .error .unknownInput ∧
      (Dictionary.lookupRun ⟨[("Elephant".toList, ["a big animal".toList])]⟩ ["y".toList]
          "elephants".toList).prompts = ["Elephant".toList, "Elephant".toList] := by
  refine ⟨by decide, by decide, by decide, by decide⟩

/-- C2 (amended): the lookup outcome for a raw query coincides with the
outcome for its normalization (unconditionally); and a query whose
normalization agrees with that of a key resolves to that key's
definitions provided the key itself is normalized. -/
theorem lookup_normalizes (d : Dictionary) (inputs : List Word) (w : Word) :
    (d.lookupRun inputs w = d.lookupRun inputs (normalizeWord w)) ∧
    (∀ k ds, (k, ds) ∈ d.data → (d.data.map Prod.fst).Nodup →
      normalizeWord k = k → normalizeWord w = normalizeWord k →
      d.lookupRun inputs w = ⟨.ok ds, inputs, []⟩) := by
  constructor
  · cases inputs with
    | nil =>
      rw [lookupRun_nil, lookupRun_nil]
      unfold lookupExhausted
      rw [normalizeWord_idem]
    | cons line rest =>
      rw [lookupRun_cons, lookupRun_cons]
      unfold lookupStep
      rw [normalizeWord_idem]
  · intro k ds hmem hnd hk hwk
    have hkey : lookupKey d.data (normalizeWord w) = some ds := by
      rw [hwk, hk]
      exact lookupKey_of_mem_nodup d.data k ds hmem hnd
    cases inputs with
    | nil => rw [lookupRun_nil, lookupExhausted_hit hkey]
    | cons line rest => rw [lookupRun_cons, lookupStep_hit _ _ _ hkey]

set_option maxRecDepth 8000 in
/-- C2 witness: the spec scenario `{"cat": ["a feline"]}`, query
`"  Cat "`: same outcome as the normalized query, and resolution. -/
theorem lookup_normalizes_witness :
    (Dictionary.lookupRun ⟨[("cat".toList, ["a feline".toList])]⟩ [] "  Cat ".toList =
        Dictionary.lookupRun ⟨[("cat".toList, ["a feline".toList])]⟩ []
          (normalizeWord "  Cat ".toList)) ∧
      Dictionary.lookupRun ⟨[("cat".toList, ["a feline".toList])]⟩ [] "  Cat ".toList =
        ⟨.ok ["a feline".toList], [], []⟩ :=
  ⟨(lookup_normalizes _ _ _).1,
   (lookup_normalizes _ _ _).2 "cat".toList ["a feline".toList]
     (by decide) (by decide) (by decide) (by decide)⟩

set_option maxRecDepth 8000 in
/-- C2 counterexample: for the non-normalized key `"Dog"` the claim's
"in particular" clause fails: the query `"Dog "` differs from that key
only by trailing whitespace, yet it does not resolve to its
definitions. -/
theorem lookup_normalizes_counterexample :
    ("Dog".toList, ["an animal".toList]) ∈
        ([("Dog".toList, ["an animal".toList])] : List (Word × Definitions)) ∧
      (Dictionary.lookupRun ⟨[("Dog".toList, ["an animal".toList])]⟩ [] "Dog ".toList).outcome =
        .error .notFound := by
  refine ⟨by decide, by decide⟩

/-- C3: on a miss with a suggested candidate, a response classifying as
negative terminates the query with `NotFound` and an unrecognized
response terminates it with `UnknownInput`; in both cases exactly the one
confirmation line is consumed and exactly the one prompt was emitted (no
re-prompting). -/
theorem confirm_negative_unrecognized (d : Dictionary) (w line : Word)
    (rest : List Word) (c : Word)
    (hmiss : lookupKey d.data (normalizeWord w) = none)
    (hcand : closestCandidate d.data (normalizeWord w) = some c) :
    (UserResponse.fromStr line = .no →
      d.lookupRun (line :: rest) w = ⟨.error .notFound, rest, [c]⟩) ∧
    (UserResponse.fromStr line = .unknown →
      d.lookupRun (line :: rest) w = ⟨.error .unknownInput, rest, [c]⟩) := by
  constructor
  · intro hline
    rw [lookupRun_cons, lookupStep_no _ _ _ hmiss hcand hline]
  · intro hline
    rw [lookupRun_cons, lookupStep_unknown _ _ _ hmiss hcand hline]

set_option maxRecDepth 8000 in
/-- C3 witness: dictionary `{"apple"}`, query `"appl"`; answering `"n"`
gives `NotFound`, answering `"maybe"` gives `UnknownInput`. -/
theorem confirm_negative_unrecognized_witness :
    Dictionary.lookupRun ⟨[("apple".toList, ["a fruit".toList])]⟩ ["n".toList] "appl".toList =
        ⟨.error .notFound, [], ["apple".toList]⟩ ∧
      Dictionary.lookupRun ⟨[("apple".toList, ["a fruit".toList])]⟩ ["maybe".toList]
          "appl".toList = ⟨.error .unknownInput, [], ["apple".toList]⟩ :=
  ⟨(confirm_negative_unrecognized _ _ _ _ _ (by decide) (by decide)).1 (by decide),
   (confirm_negative_unrecognized _ _ _ _ _ (by decide) (by decide)).2 (by decide)⟩

/-- C4: closest-candidate search is deterministic: two results computed
from the same dictionary data and the same input are equal. -/
theorem closestCandidate_deterministic (data : List (Word × Definitions)) (w : Word)
    (r₁ r₂ : Option Word)
    (h₁ : closestCandidate data w = r₁) (h₂ : closestCandidate data w = r₂) :
    r₁ = r₂ := by
  rw [← h₁, ← h₂]

set_option maxRecDepth 8000 in
/-- C4 witness: on `{"apple"}` and input `"appl"` the search computes
`some "apple"`, every time. -/
theorem closestCandidate_deterministic_witness :
    closestCandidate [("apple".toList, ["a fruit".toList])] "appl".toList =
      some "apple".toList :=
  closestCandidate_deterministic _ _ _ _ rfl (by decide)

/-- C5: when the query misses and no dictionary key clears the 0.8
similarity cutoff, no candidate is produced and the lookup returns
`NotFound` at once: the input stream is left untouched (no console line
read) and no confirmation prompt is emitted. -/
theorem belowCutoff_notFound (d : Dictionary) (inputs : List Word) (w : Word)
    (hmiss : lookupKey d.data (normalizeWord w) = none)
    (hlow : ∀ k ∈ d.data.map Prod.fst, clearsCutoff k (normalizeWord w) = false) :
    d.lookupRun inputs w = ⟨.error .notFound, inputs, []⟩ := by
  have hc := closestCandidate_none d.data (normalizeWord w) hlow
  cases inputs with
  | nil => rw [lookupRun_nil, lookupExhausted_noCandidate hmiss hc]
  | cons line rest => rw [lookupRun_cons, lookupStep_noCandidate _ _ _ hmiss hc]

set_option maxRecDepth 8000 in
/-- C5 witness: the spec scenario `{"cat": [...]}`, query `"zzzzz"`:
`NotFound`, with the pending console line left unread and no prompt. -/
theorem belowCutoff_notFound_witness :
    Dictionary.lookupRun ⟨[("cat".toList, ["a feline".toList])]⟩ ["y".toList] "zzzzz".toList =
      ⟨.error .notFound, ["y".toList], []⟩ :=
  belowCutoff_notFound _ _ _ (by decide) (by decide)

/-- C6 (amended): a key of the dictionary that is itself normalized is
looked up to exactly the definitions stored with it at construction, in
order, with no console interaction; the dictionary value itself is never
modified (the embedding is a pure function of it). -/
theorem lookup_exact_hit (d : Dictionary) (inputs : List Word) (w : Word) (ds : Definitions)
    (hmem : (w, ds) ∈ d.data) (hnd : (d.data.map Prod.fst).Nodup)
    (hw : normalizeWord w = w) :
    d.lookupRun inputs w = ⟨.ok ds, inputs, []⟩ := by
  have hkey : lookupKey d.data (normalizeWord w) = some ds := by
    rw [hw]
    exact lookupKey_of_mem_nodup d.data w ds hmem hnd
  cases inputs with
  | nil => rw [lookupRun_nil, lookupExhausted_hit hkey]
  | cons line rest => rw [lookupRun_cons, lookupStep_hit _ _ _ hkey]

set_option maxRecDepth 8000 in
/-- C6 witness: `{"cat": ["a feline"]}`, query `"cat"`. -/
theorem lookup_exact_hit_witness :
    Dictionary.lookupRun ⟨[("cat".toList, ["a feline".toList])]⟩ [] "cat".toList =
      ⟨.ok ["a feline".toList], [], []⟩ :=
  lookup_exact_hit _ _ _ _ (by decide) (by decide) (by decide)

set_option maxRecDepth 8000 in
/-- C6 counterexample: `"Cat"` is present as a key, yet looking it up
returns `NotFound` instead of its definitions, because the query is
normalized to `"cat"` while the stored key is not normalized. -/
theorem lookup_exact_hit_counterexample :
    ("Cat".toList, ["a feline".toList]) ∈
        ([("Cat".toList, ["a feline".toList])] : List (Word × Definitions)) ∧
      (Dictionary.lookupRun ⟨[("Cat".toList, ["a feline".toList])]⟩ [] "Cat".toList).outcome =
        .error .notFound := by
  refine ⟨by decide, by decide⟩

/-- C7 (amended): for a dictionary all of whose keys are normalized, the
confirmation recursion is bounded to depth 1: a top-level lookup emits at
most one confirmation prompt, because the recursive call on a suggested
candidate hits exactly and never re-enters the fuzzy-suggestion branch.
(The engine is moreover total on every finite console stream, being a
structurally recursive function of it.) -/
theorem lookup_depth_le_one (d : Dictionary)
    (hnorm : ∀ k ∈ d.data.map Prod.fst, normalizeWord k = k)
    (inputs : List Word) (w : Word) :
    (d.lookupRun inputs w).prompts.length ≤ 1 := by
  cases inputs with
  | nil =>
    rw [lookupRun_nil]
    rcases hk : lookupKey d.data (normalizeWord w) with _ | ds
    · rcases hc : closestCandidate d.data (normalizeWord w) with _ | c
      · rw [lookupExhausted_noCandidate hk hc]
        simp
      · rw [lookupExhausted_candidate hk hc]
        simp
    · rw [lookupExhausted_hit hk]
      simp
  | cons line rest =>
    rw [lookupRun_cons]
    rcases hk : lookupKey d.data (normalizeWord w) with _ | ds
    · rcases hc : closestCandidate d.data (normalizeWord w) with _ | c
      · rw [lookupStep_noCandidate _ _ _ hk hc]
        simp
      · cases hline : UserResponse.fromStr line with
        | yes =>
          rw [lookupStep_yes _ _ _ hk hc hline]
          have hmemc := closestCandidate_mem hc
          obtain ⟨ds, hds⟩ := lookupKey_of_mem_keys d.data c hmemc
          have hkey : lookupKey d.data (normalizeWord c) = some ds := by
            rw [hnorm c hmemc]
            exact hds
          have hrec : d.lookupRun rest c = ⟨.ok ds, rest, []⟩ := by
            cases rest with
            | nil => rw [lookupRun_nil, lookupExhausted_hit hkey]
            | cons l2 r2 => rw [lookupRun_cons, lookupStep_hit _ _ _ hkey]
          rw [hrec]
          simp
        | no =>
          rw [lookupStep_no _ _ _ hk hc hline]
          simp
        | unknown =>
          rw [lookupStep_unknown _ _ _ hk hc hline]
          simp
    · rw [lookupStep_hit _ _ _ hk]
      simp

set_option maxRecDepth 8000 in
/-- C7 witness: `{"apple"}` (normalized keys), query `"appl"`, answer
`"y"`: exactly one prompt. -/
theorem lookup_depth_le_one_witness :
    (Dictionary.lookupRun ⟨[("apple".toList, ["a fruit".toList])]⟩ ["y".toList]
        "appl".toList).prompts.length ≤ 1 :=
  lookup_depth_le_one _ (by decide) _ _

set_option maxRecDepth 8000 in
/-- C7 counterexample: with the non-normalized key `"Elephant"`, the
query `"elephants"` and two affirmative answers drive the engine through
the fuzzy-suggestion branch three times (three prompts): the recursion is
not bounded to depth 1. -/
theorem lookup_depth_le_one_counterexample :
    ¬ (Dictionary.lookupRun ⟨[("Elephant".toList, ["a big animal".toList])]⟩
        ["y".toList, "y".toList] "elephants".toList).prompts.length ≤ 1 := by
  decide

/-- C8: the lookup engine never returns the `IncorrectWord` error kind to
its caller, for any dictionary, any query, and any sequence of console
lines: the candidate suggestion is always handled inside the confirmation
flow, so the `IncorrectWord` branch in `main` is unreachable. -/
theorem lookup_never_incorrectWord (d : Dictionary) (inputs : List Word) (w c : Word) :
    (d.lookupRun inputs w).outcome ≠ .error (.incorrectWord c) := by
  rcases lookupRun_outcome_cases d inputs w with ⟨ds, h⟩ | h | h <;> rw [h] <;> simp

set_option maxRecDepth 8000 in
/-- C8 witness: a concrete run never yields `IncorrectWord`. -/
theorem lookup_never_incorrectWord_witness :
    (Dictionary.lookupRun ⟨[("cat".toList, ["a feline".toList])]⟩ [] "cat".toList).outcome ≠
      .error (.incorrectWord "cat".toList) :=
  lookup_never_incorrectWord _ _ _ _

/-- Byte-level run against an exhausted console. -/
theorem lookupRunBytes_nil (d : Dictionary) (w : Word) :
    d.lookupRunBytes [] w = some (lookupExhausted d w).outcome := rfl

/-- Byte-level run with at least one line of bytes available. -/
theorem lookupRunBytes_cons (d : Dictionary) (bline : List Nat)
    (rest : List (List Nat)) (w : Word) :
    d.lookupRunBytes (bline :: rest) w =
      lookupStepBytes d bline (d.lookupRunBytes rest) w := rfl

/-- When every console line decodes as valid UTF-8, no read ever hits the
abort branch of the `.unwrap()`, and the byte-level run computes exactly
the outcome of the engine on the decoded lines. -/
theorem lookupRunBytes_decodes (d : Dictionary) :
    ∀ (inputs : List (List Nat)) (ws : List Word) (w : Word),
      inputs.map decodeUtf8 = ws.map some →
      d.lookupRunBytes inputs w = some (d.lookupRun ws w).outcome
  | [], ws, w, hdec => by
    cases ws with
    | nil => rfl
    | cons l ls => simp at hdec
  | bline :: rest, ws, w, hdec => by
    cases ws with
    | nil => simp at hdec
    | cons line ws2 =>
      simp only [List.map_cons, List.cons.injEq] at hdec
      obtain ⟨hline, hrest⟩ := hdec
      rw [lookupRunBytes_cons, lookupRun_cons]
      unfold lookupStepBytes lookupStep
      rcases hk : lookupKey d.data (normalizeWord w) with _ | ds
      · rcases hc : closestCandidate d.data (normalizeWord w) with _ | c
        · simp [hk, hc]
        · rcases hr : confirmResponse line with e | r
          · simp [hk, hc, hline, hr]
          · cases r with
            | yes =>
              simp only [hk, hc, hline, hr]
              exact lookupRunBytes_decodes d rest ws2 c hrest
            | no => simp [hk, hc, hline, hr]
            | unknown => simp [hk, hc, hline, hr]
      · simp [hk]

/-- C9 (amended): the resolution engine aborts on no console input whose
lines are valid UTF-8 text: on such input, for every dictionary and
query, every read succeeds, the run produces an explicit outcome value
(never a panic), the byte-level run agrees with the engine on the decoded
lines, and that outcome is a success, `NotFound`, or `UnknownInput`.
(The restriction is forced by `confirm_word`'s
`read_line(..).unwrap()` at src/main.rs line 78, which aborts when a
console line is not valid UTF-8.) -/
theorem valid_utf8_no_abort (d : Dictionary) (inputs : List (List Nat))
    (ws : List Word) (w : Word)
    (hdec : inputs.map decodeUtf8 = ws.map some) :
    d.lookupRunBytes inputs w = some (d.lookupRun ws w).outcome ∧
      ((∃ ds, (d.lookupRun ws w).outcome = .ok ds) ∨
        (d.lookupRun ws w).outcome = .error .notFound ∨
        (d.lookupRun ws w).outcome = .error .unknownInput) :=
  ⟨lookupRunBytes_decodes d inputs ws w hdec, lookupRun_outcome_cases d ws w⟩

set_option maxRecDepth 8000 in
/-- C9 witness: the byte-encoded line `"n"` (byte `0x6E`) decodes, so
the run does not abort and returns the explicit outcome of the engine on
the decoded line. -/
theorem valid_utf8_no_abort_witness :
    Dictionary.lookupRunBytes ⟨[("apple".toList, ["a fruit".toList])]⟩ [[110]]
        "appl".toList =
      some (Dictionary.lookupRun ⟨[("apple".toList, ["a fruit".toList])]⟩
        ["n".toList] "appl".toList).outcome ∧
      ((∃ ds, (Dictionary.lookupRun ⟨[("apple".toList, ["a fruit".toList])]⟩
          ["n".toList] "appl".toList).outcome = .ok ds) ∨
        (Dictionary.lookupRun ⟨[("apple".toList, ["a fruit".toList])]⟩
          ["n".toList] "appl".toList).outcome = .error .notFound ∨
        (Dictionary.lookupRun ⟨[("apple".toList, ["a fruit".toList])]⟩
          ["n".toList] "appl".toList).outcome = .error .unknownInput) :=
  valid_utf8_no_abort _ _ _ _ (by decide)

set_option maxRecDepth 8000 in
/-- C9 counterexample: the claim as stated fails on the code.  At the
confirmation prompt for query `"appl"` (candidate `"apple"`), a console
line consisting of the single byte `0xFF` is not valid UTF-8:
`read_line` returns `Err`, the `.unwrap()` at src/main.rs line 78 aborts
the process, and no outcome value is produced. -/
theorem invalid_utf8_aborts :
    Dictionary.lookupRunBytes ⟨[("apple".toList, ["a fruit".toList])]⟩ [[0xFF]]
      "appl".toList = none := by
  decide

/-- C10: classification of a console line is total and acts on the
trimmed, case-folded line: affirmative exactly for `"y"`/`"yes"`,
negative exactly for `"n"`/`"no"` (any letter case, any surrounding
whitespace), unrecognized for everything else. -/
theorem fromStr_classification (s : Word) :
    (UserResponse.fromStr s = .yes ↔
        normalizeWord s ∈ ["y".toList, "yes".toList]) ∧
      (UserResponse.fromStr s = .no ↔
        normalizeWord s ∈ ["n".toList, "no".toList]) ∧
      (UserResponse.fromStr s = .unknown ↔
        normalizeWord s ∉ ["y".toList, "yes".toList, "n".toList, "no".toList]) := by
  unfold UserResponse.fromStr
  by_cases h1 : normalizeWord s = "y".toList ∨ normalizeWord s = "yes".toList
  · rw [if_pos h1]
    rcases h1 with h | h <;> rw [h] <;> decide
  · rw [if_neg h1]
    by_cases h2 : normalizeWord s = "n".toList ∨ normalizeWord s = "no".toList
    · rw [if_pos h2]
      rcases h2 with h | h <;> rw [h] <;> decide
    · rw [if_neg h2]
      refine ⟨?_, ?_, ?_⟩
      · simp only [List.mem_cons, List.not_mem_nil, or_false]
        exact iff_of_false (by decide) h1
      · simp only [List.mem_cons, List.not_mem_nil, or_false]
        exact iff_of_false (by decide) h2
      · simp only [List.mem_cons, List.not_mem_nil, or_false]
        exact iff_of_true trivial (by tauto)
